import Mathlib

/-!
Verification of the process-wick watchdog core: the process-tree builder
(`build_process_tree`), the post-order termination planner
(`get_processes_in_dfs_order`), the escalating signal dispatcher
(`send_signal`), and the guardian watch loop, shallowly embedded from
`src/lib.rs` and `src/main.rs`.

The OS is abstracted as explicit data: the process table is a list of
`(pid, parent_pid)` records (the result of `get_all_processes`), process
liveness and signal outcomes are boolean oracles, and the side effects of
the dispatcher are reified as an event trace.
-/

namespace ProcessWick

/-- Mirror of the Rust `ProcessNode` struct (`lib.rs`): a node of the
process tree, holding the pid, the parent pid recorded at discovery time,
the ordered list of child pids, and the depth below the root. -/
structure ProcessNode where
  pid : Nat
  parent_pid : Nat
  children : List Nat
  depth : Nat
  deriving Repr, DecidableEq

/-- Mirror of `ProcessNode::new`: empty children, depth 0. -/
def ProcessNode.new (pid parent_pid : Nat) : ProcessNode :=
  ⟨pid, parent_pid, [], 0⟩

/-- The `HashMap<u32, ProcessNode>` of the Rust code, embedded as an
association list with distinct keys (insertion conses at the front and is
only performed on absent keys). -/
abbrev Tree := List (Nat × ProcessNode)

/-- Key lookup in the tree map (`process_tree.get(&p)` / `process_tree[&p]`). -/
def lookupNode : Tree → Nat → Option ProcessNode
  | [], _ => none
  | (q, n) :: t, p => if p = q then some n else lookupNode t p

/-- The keys of the tree map. -/
def keys (t : Tree) : List Nat := t.map Prod.fst

/-- `process_tree.get_mut(&p).children.push(c)`: append `c` to the children
list of the node keyed `p` (first occurrence), if present. -/
def addChild : Tree → Nat → Nat → Tree
  | [], _, _ => []
  | (q, n) :: t, p, c =>
    if p = q then (q, { n with children := n.children ++ [c] }) :: t
    else (q, n) :: addChild t p c

/-- State of the breadth-first loop in `build_process_tree`: the tree map
built so far, the `to_visit` FIFO queue, and (as bookkeeping for the
termination argument) the list of pids popped and expanded so far. -/
structure BuildState where
  tree : Tree
  queue : List Nat
  expanded : List Nat
  deriving DecidableEq

/-- One iteration of the inner `for (pid, parent_pid) in all_processes`
loop of `build_process_tree` (`lib.rs` lines 59-74): if the record makes
`r.1` a child of `current` (parent matches and it is not a self-parent
record), insert a fresh node at depth `d + 1` and enqueue it when the pid
is not yet in the tree, then unconditionally append the pid to the current
node's children list. -/
def stepRecord (current : Nat) (d : Nat) (s : BuildState) (r : Nat × Nat) : BuildState :=
  if r.2 = current ∧ r.1 ≠ current then
    let s1 : BuildState :=
      if (lookupNode s.tree r.1).isNone then
        { s with tree := (r.1, ⟨r.1, r.2, [], d + 1⟩) :: s.tree,
                 queue := s.queue ++ [r.1] }
      else s
    { s1 with tree := addChild s1.tree current r.1 }
  else s

/-- The whole inner `for` loop over one process-table snapshot. -/
def expandChildren (table : List (Nat × Nat)) (current : Nat) (d : Nat)
    (s : BuildState) : BuildState :=
  table.foldl (stepRecord current d) s

/-- One iteration of the `while let Some(current_pid) = to_visit.pop_front()`
loop: pop the front pid, read its depth, and fold the snapshot over it. -/
def buildStep (table : List (Nat × Nat)) (s : BuildState) : BuildState :=
  match s.queue with
  | [] => s
  | current :: rest =>
    let d := ((lookupNode s.tree current).map ProcessNode.depth).getD 0
    expandChildren table current d
      { tree := s.tree, queue := rest, expanded := s.expanded ++ [current] }

/-- The `while` loop of `build_process_tree`, with an explicit fuel bound on
the number of iterations (the Rust loop runs until the queue is empty; the
termination theorem shows the canonical fuel below always suffices). -/
def buildAux (table : List (Nat × Nat)) : Nat → BuildState → BuildState
  | 0, s => s
  | fuel + 1, s =>
    match s.queue with
    | [] => s
    | _ :: _ => buildAux table fuel (buildStep table s)

/-- Initial state of `build_process_tree`: the tree holds a single node for
the root (synthetic parent 0, depth 0) and the queue holds the root. -/
def initState (root : Nat) : BuildState :=
  ⟨[(root, ProcessNode.new root 0)], [root], []⟩

/-- Fuel that provably exhausts the queue: the loop pops one pid per
iteration and every pid ever enqueued is fresh and drawn from
`root :: table pids`. -/
def buildFuel (table : List (Nat × Nat)) : Nat := 2 * table.length + 1

/-- Mirror of `build_process_tree` (`lib.rs` lines 45-78), with the process
table snapshot passed explicitly in place of the `get_all_processes` call. -/
def build_process_tree (table : List (Nat × Nat)) (root_pid : Nat) : Tree :=
  (buildAux table (buildFuel table) (initState root_pid)).tree

/-- State of the recursive `dfs` helper of `get_processes_in_dfs_order`:
the `visited` HashSet (as a list) and the accumulated `result` vector. -/
structure DfsState where
  visited : List Nat
  result : List Nat
  deriving DecidableEq

/-- The recursive `dfs` helper (`lib.rs` lines 88-109), with an explicit
fuel bound on the recursion depth: return if the pid is already visited,
mark it visited, and if it has a node in the tree, first recurse into all
its children and then push the pid itself (post-order). -/
def dfsAux (tree : Tree) : Nat → Nat → DfsState → DfsState
  | 0, _, s => s
  | fuel + 1, pid, s =>
    if pid ∈ s.visited then s
    else
      let s1 : DfsState := ⟨pid :: s.visited, s.result⟩
      match lookupNode tree pid with
      | none => s1
      | some node =>
        let s2 := node.children.foldl (fun acc c => dfsAux tree fuel c acc) s1
        ⟨s2.visited, s2.result ++ [pid]⟩

/-- The sequential exploration of a list of children, for stating lemmas
about the `foldl` inside `dfsAux`. -/
def dfsList (tree : Tree) (fuel : Nat) (cs : List Nat) (s : DfsState) : DfsState :=
  cs.foldl (fun acc c => dfsAux tree fuel c acc) s

/-- Every pid the recursion can ever insert into `visited`: the requested
root, the tree's keys, and every pid occurring in some children list. -/
def relevant (tree : Tree) (root : Nat) : List Nat :=
  root :: keys tree ++ tree.flatMap (fun e => e.2.children)

/-- Recursion-depth fuel that provably suffices: each nested call inserts a
fresh pid of `relevant` into `visited`. -/
def dfsFuel (tree : Tree) (root : Nat) : Nat :=
  (relevant tree root).toFinset.card + 1

/-- Mirror of `get_processes_in_dfs_order` (`lib.rs` lines 81-113). -/
def get_processes_in_dfs_order (process_tree : Tree) (root_pid : Nat) : List Nat :=
  (dfsAux process_tree (dfsFuel process_tree root_pid) root_pid ⟨[], []⟩).result

/-- The OS as seen by one phase of the dispatcher: the process table
snapshot, the liveness oracle (`is_process_alive`), whether the group kill
`kill(-pid, sig)` succeeds for a given root pid, and whether the individual
`kill(pid, sig)` succeeds for a given pid. -/
structure World where
  table : List (Nat × Nat)
  alive : Nat → Bool
  groupKillOk : Nat → Bool
  killOk : Nat → Bool

/-- Reified side effects of the watchdog: a group-kill attempt with its
outcome, an `is_process_alive` query with its answer, an individual signal
send with its outcome, the grace-period sleep, one liveness poll of the
guardian, and the start-of-escalation marker (the "Unleashing vengeance"
transition of the watch loop). -/
inductive Event where
  | groupSend (pid : Nat) (force : Bool) (ok : Bool)
  | checkAlive (pid : Nat) (alive : Bool)
  | send (pid : Nat) (force : Bool) (ok : Bool)
  | sleep (secs : Nat)
  | poll (alive : Bool)
  | escalate
  deriving DecidableEq, Repr

/-- Mirror of `send_signal` in `lib.rs` (lines 258-320), as a trace of the
signals it emits: first attempt the group kill; on success return at once;
on failure build a fresh process tree rooted at `pid`, compute the
post-order kill order, and for each pid in that order query liveness and,
only if it is still alive, send the signal individually (the per-pid
outcome `w.killOk p` is recorded but never stops the loop). -/
def send_signal (w : World) (pid : Nat) (force : Bool) : List Event :=
  if w.groupKillOk pid then [Event.groupSend pid force true]
  else
    Event.groupSend pid force false ::
      (get_processes_in_dfs_order (build_process_tree w.table pid) pid).flatMap
        (fun p =>
          Event.checkAlive p (w.alive p) ::
            if w.alive p then [Event.send p force (w.killOk p)] else [])

/-- The pids that receive an individual (non-group) signal in a trace. -/
def individualSends (t : List Event) : List Nat :=
  t.filterMap (fun e => match e with | Event.send p _ _ => some p | _ => none)

/-- The escalation sequence of the watch loop body in `main.rs` (lines
279-296), with the graceful-phase OS state `w1` and the forced-phase OS
state `w2` (the table and liveness may change during the grace period):
send the graceful signal to every target, sleep out the vengeance delay,
then for every target that is still alive send the forced signal. The
dispatcher composed here is the tree-based `send_signal` of `lib.rs`
(`main.rs` also contains a simpler shadowing variant without tree
discovery; the spec designates the tree-based revision as the intended
one). -/
def escalationRun (w1 w2 : World) (targets : List Nat) (delay : Nat) : List Event :=
  targets.flatMap (fun pid => send_signal w1 pid false)
    ++ [Event.sleep delay]
    ++ targets.flatMap (fun pid =>
        Event.checkAlive pid (w2.alive pid) ::
          if w2.alive pid then send_signal w2 pid true else [])

/-- The graceful-phase part of an escalation trace. -/
def gracefulPhase (w1 : World) (targets : List Nat) : List Event :=
  targets.flatMap (fun pid => send_signal w1 pid false)

/-- The forced-phase part of an escalation trace. -/
def forcedPhase (w2 : World) (targets : List Nat) : List Event :=
  targets.flatMap (fun pid =>
    Event.checkAlive pid (w2.alive pid) ::
      if w2.alive pid then send_signal w2 pid true else [])

/-- The watch loop of `main.rs` (lines 276-301), driven by the finite
prefix `polls` of `is_process_alive(dog_pid)` poll results: each tick polls
the guardian; while the poll is `true` the loop only sleeps and polls
again; on the first `false` poll it runs the escalation sequence `esc`
once and breaks (later poll results are never consulted). -/
def runWatch (polls : List Bool) (esc : List Event) : List Event :=
  match polls with
  | [] => []
  | b :: rest =>
    Event.poll b :: if b then runWatch rest esc else Event.escalate :: esc

/-- Unix `is_process_alive` in `main.rs` (lines 99-103):
`kill(pid, None).is_ok()` — the probe result is `ok` or an errno, and the
process counts as alive exactly when the probe returned `ok`. -/
inductive Errno where
  | ESRCH
  | EPERM
  | EINVAL
  deriving DecidableEq, Repr

/-- Mirror of `is_process_alive` on the outcome of the `kill(pid, None)`
probe: `is_ok()`. -/
def is_process_alive (probe : Except Errno Unit) : Bool :=
  match probe with
  | .ok _ => true
  | .error _ => false

/-- A parent-to-child edge of the built tree: `c` occurs in the children
list of the node keyed `p`. -/
def Edge (t : Tree) (p c : Nat) : Prop :=
  ∃ n, lookupNode t p = some n ∧ c ∈ n.children

@[simp]
theorem lookupNode_nil (p : Nat) : lookupNode [] p = none := rfl

@[simp]
theorem lookupNode_cons (q : Nat) (n : ProcessNode) (t : Tree) (p : Nat) :
    lookupNode ((q, n) :: t) p = if p = q then some n else lookupNode t p := rfl

@[simp]
theorem keys_nil : keys [] = [] := rfl

@[simp]
theorem keys_cons (q : Nat) (n : ProcessNode) (t : Tree) :
    keys ((q, n) :: t) = q :: keys t := rfl

theorem lookupNode_isSome_iff_mem_keys (t : Tree) (p : Nat) :
    (lookupNode t p).isSome ↔ p ∈ keys t := by
  induction t with
  | nil => simp [keys]
  | cons e t ih =>
    obtain ⟨q, n⟩ := e
    by_cases h : p = q <;> simp [h, ih]

theorem lookupNode_eq_none_iff (t : Tree) (p : Nat) :
    lookupNode t p = none ↔ p ∉ keys t := by
  rw [← lookupNode_isSome_iff_mem_keys]
  cases lookupNode t p <;> simp

theorem mem_keys_of_lookupNode (t : Tree) (p : Nat) (n : ProcessNode)
    (h : lookupNode t p = some n) : p ∈ keys t := by
  rw [← lookupNode_isSome_iff_mem_keys, h]; rfl

theorem lookupNode_mem (t : Tree) (p : Nat) (n : ProcessNode)
    (h : lookupNode t p = some n) : (p, n) ∈ t := by
  induction t with
  | nil => simp at h
  | cons e t ih =>
    obtain ⟨q, m⟩ := e
    by_cases hq : p = q
    · subst hq; simp at h; simp [h]
    · simp [hq] at h; exact List.mem_cons_of_mem _ (ih h)

@[simp]
theorem keys_addChild (t : Tree) (p c : Nat) :
    keys (addChild t p c) = keys t := by
  induction t with
  | nil => rfl
  | cons e t ih =>
    obtain ⟨q, n⟩ := e
    by_cases h : p = q <;> simp [addChild, h, ih]

theorem lookupNode_addChild_self (t : Tree) (p c : Nat) :
    lookupNode (addChild t p c) p =
      (lookupNode t p).map (fun n => { n with children := n.children ++ [c] }) := by
  induction t with
  | nil => rfl
  | cons e t ih =>
    obtain ⟨q, n⟩ := e
    by_cases h : p = q <;> simp [addChild, h, ih]

theorem lookupNode_addChild_other (t : Tree) (p c q : Nat) (h : q ≠ p) :
    lookupNode (addChild t p c) q = lookupNode t q := by
  induction t with
  | nil => rfl
  | cons e t ih =>
    obtain ⟨k, n⟩ := e
    by_cases hk : p = k
    · subst hk
      simp [addChild, h]
    · by_cases hq : q = k <;> simp [addChild, hk, hq, ih]

theorem edge_addChild (t : Tree) (p c a b : Nat) (h : Edge t a b) :
    Edge (addChild t p c) a b := by
  obtain ⟨n, hn, hb⟩ := h
  by_cases ha : a = p
  · subst ha
    exact ⟨_, by rw [lookupNode_addChild_self, hn]; rfl,
      by simp [hb]⟩
  · exact ⟨n, by rw [lookupNode_addChild_other _ _ _ _ ha]; exact hn, hb⟩

theorem edge_insert_fresh (t : Tree) (k : Nat) (n : ProcessNode) (a b : Nat)
    (hk : k ∉ keys t) (h : Edge t a b) : Edge ((k, n) :: t) a b := by
  obtain ⟨m, hm, hb⟩ := h
  have ha : a ≠ k := fun e => hk (e ▸ mem_keys_of_lookupNode t a m hm)
  exact ⟨m, by simp [ha, hm], hb⟩

/-- Decreasing measure of the breadth-first loop: twice the number of
candidate pids (`root` and the table's pid column) not yet inserted in the
tree, plus the queue length. Each loop iteration pops one pid and every
push inserts a fresh candidate into the tree. -/
def buildMeasure (table : List (Nat × Nat)) (root : Nat) (s : BuildState) : Nat :=
  2 * ((root :: table.map Prod.fst).toFinset \ (keys s.tree).toFinset).card
    + s.queue.length

/-- Invariant of the breadth-first loop of `build_process_tree`, relative to
the fixed snapshot `table` and root pid. -/
structure BInv (table : List (Nat × Nat)) (root : Nat) (s : BuildState) : Prop where
  keys_nodup : (keys s.tree).Nodup
  pid_eq : ∀ p n, lookupNode s.tree p = some n → n.pid = p
  queue_keys : ∀ p ∈ s.queue, p ∈ keys s.tree
  expanded_keys : ∀ p ∈ s.expanded, p ∈ keys s.tree
  exp_queue_nodup : (s.expanded ++ s.queue).Nodup
  root_mem : root ∈ keys s.tree
  root_node : ∀ n, lookupNode s.tree root = some n → n.parent_pid = 0 ∧ n.depth = 0
  no_self_child : ∀ p n, lookupNode s.tree p = some n → p ∉ n.children
  depth_parent : ∀ p n, lookupNode s.tree p = some n → p ≠ root →
    ∃ m, lookupNode s.tree n.parent_pid = some m ∧ n.depth = m.depth + 1
  child_rec : ∀ p n c, lookupNode s.tree p = some n → c ∈ n.children →
    (c, p) ∈ table ∧ c ≠ p ∧ c ∈ keys s.tree
  reach : ∀ p ∈ keys s.tree, Relation.ReflTransGen (Edge s.tree) root p
  keys_sub : ∀ p ∈ keys s.tree, p = root ∨ p ∈ table.map Prod.fst

theorem stepRecord_not_child (current d : Nat) (s : BuildState) (r : Nat × Nat)
    (h : ¬(r.2 = current ∧ r.1 ≠ current)) : stepRecord current d s r = s := by
  simp [stepRecord, h]

theorem addChild_cons_ne (k p c : Nat) (n : ProcessNode) (t : Tree) (h : p ≠ k) :
    addChild ((k, n) :: t) p c = (k, n) :: addChild t p c := by
  simp [addChild, h]

theorem stepRecord_fresh (current d : Nat) (s : BuildState) (r : Nat × Nat)
    (h1 : r.2 = current) (h2 : r.1 ≠ current)
    (hlk : lookupNode s.tree r.1 = none) :
    stepRecord current d s r =
      ⟨(r.1, ⟨r.1, current, [], d + 1⟩) :: addChild s.tree current r.1,
        s.queue ++ [r.1], s.expanded⟩ := by
  have : stepRecord current d s r =
      ⟨addChild ((r.1, ⟨r.1, r.2, [], d + 1⟩) :: s.tree) current r.1,
        s.queue ++ [r.1], s.expanded⟩ := by
    simp [stepRecord, h1, h2, hlk]
  rw [this, addChild_cons_ne _ _ _ _ _ (fun e => h2 e.symm), h1]

theorem stepRecord_existing (current d : Nat) (s : BuildState) (r : Nat × Nat)
    (h1 : r.2 = current) (h2 : r.1 ≠ current)
    (hlk : (lookupNode s.tree r.1).isSome) :
    stepRecord current d s r = ⟨addChild s.tree current r.1, s.queue, s.expanded⟩ := by
  have hn : ¬(lookupNode s.tree r.1).isNone := by
    cases h : lookupNode s.tree r.1 <;> simp [h] at hlk ⊢
  simp [stepRecord, h1, h2, hn]

theorem stepRecord_preserves (table : List (Nat × Nat)) (root current d : Nat)
    (r : Nat × Nat) (hr : r ∈ table) (s : BuildState) (hinv : BInv table root s)
    (nc : ProcessNode) (hcur : lookupNode s.tree current = some nc) (hd : nc.depth = d) :
    BInv table root (stepRecord current d s r) ∧
    (∃ nc2, lookupNode (stepRecord current d s r).tree current = some nc2 ∧
      nc2.depth = d) ∧
    buildMeasure table root (stepRecord current d s r) ≤ buildMeasure table root s ∧
    (stepRecord current d s r).expanded = s.expanded := by
  by_cases hcond : r.2 = current ∧ r.1 ≠ current
  case neg =>
    rw [stepRecord_not_child _ _ _ _ hcond]
    exact ⟨hinv, ⟨nc, hcur, hd⟩, le_refl _, rfl⟩
  case pos =>
    obtain ⟨h1, h2⟩ := hcond
    have hcurmem : current ∈ keys s.tree := mem_keys_of_lookupNode _ _ _ hcur
    have hrpair : (r.1, current) = r := by rw [← h1]
    have hrfst : r.1 ∈ table.map Prod.fst := List.mem_map.mpr ⟨r, hr, rfl⟩
    cases hlk : lookupNode s.tree r.1 with
    | some nex =>
      rw [stepRecord_existing _ _ _ _ h1 h2 (by rw [hlk]; rfl)]
      have hmemc : r.1 ∈ keys s.tree := by
        rw [← lookupNode_isSome_iff_mem_keys, hlk]; rfl
      have hself : lookupNode (addChild s.tree current r.1) current =
          some { nc with children := nc.children ++ [r.1] } := by
        rw [lookupNode_addChild_self, hcur]; rfl
      have hchar : ∀ p n, lookupNode (addChild s.tree current r.1) p = some n →
          (p = current ∧ n = { nc with children := nc.children ++ [r.1] }) ∨
          (p ≠ current ∧ lookupNode s.tree p = some n) := by
        intro p n h
        by_cases hp : p = current
        · subst hp; rw [hself] at h
          exact Or.inl ⟨rfl, (Option.some_inj.mp h).symm⟩
        · rw [lookupNode_addChild_other _ _ _ _ hp] at h
          exact Or.inr ⟨hp, h⟩
      refine ⟨⟨?_, ?_, ?_, ?_, ?_, ?_, ?_, ?_, ?_, ?_, ?_, ?_⟩, ?_, ?_, rfl⟩
      · show (keys (addChild s.tree current r.1)).Nodup
        rw [keys_addChild]; exact hinv.keys_nodup
      · intro p n h
        rcases hchar p n h with ⟨hp, hn⟩ | ⟨_, hold⟩
        · subst hn; rw [hp]; simpa using hinv.pid_eq _ _ hcur
        · exact hinv.pid_eq _ _ hold
      · intro p hp
        show p ∈ keys (addChild s.tree current r.1)
        rw [keys_addChild]; exact hinv.queue_keys p hp
      · intro p hp
        show p ∈ keys (addChild s.tree current r.1)
        rw [keys_addChild]; exact hinv.expanded_keys p hp
      · exact hinv.exp_queue_nodup
      · show root ∈ keys (addChild s.tree current r.1)
        rw [keys_addChild]; exact hinv.root_mem
      · intro n h
        rcases hchar root n h with ⟨hp, hn⟩ | ⟨_, hold⟩
        · subst hn
          have := hinv.root_node nc (by rw [hp]; exact hcur)
          simpa using this
        · exact hinv.root_node _ hold
      · intro p n h hmem
        rcases hchar p n h with ⟨hp, hn⟩ | ⟨_, hold⟩
        · subst hn
          rw [hp] at hmem
          simp only [List.mem_append, List.mem_singleton] at hmem
          rcases hmem with hmem | hmem
          · exact hinv.no_self_child _ _ hcur hmem
          · exact h2 hmem.symm
        · exact hinv.no_self_child _ _ hold hmem
      · intro p n h hproot
        rcases hchar p n h with ⟨hp, hn⟩ | ⟨hp, hold⟩
        · subst hn
          rw [hp] at hproot
          obtain ⟨m, hm, hdm⟩ := hinv.depth_parent current nc hcur hproot
          simp only
          by_cases hpc : nc.parent_pid = current
          · rw [hpc, hcur] at hm
            have : m = nc := Option.some_inj.mp hm.symm
            subst this; omega
          · exact ⟨m, by rw [lookupNode_addChild_other _ _ _ _ hpc]; exact hm, hdm⟩
        · obtain ⟨m, hm, hdm⟩ := hinv.depth_parent p n hold hproot
          by_cases hpc : n.parent_pid = current
          · refine ⟨{ nc with children := nc.children ++ [r.1] },
              by rw [hpc]; exact hself, ?_⟩
            rw [hpc, hcur] at hm
            have : m = nc := Option.some_inj.mp hm.symm
            subst this; simpa using hdm
          · exact ⟨m, by rw [lookupNode_addChild_other _ _ _ _ hpc]; exact hm, hdm⟩
      · intro p n c h hc
        rcases hchar p n h with ⟨hp, hn⟩ | ⟨_, hold⟩
        · subst hn
          rw [hp]
          simp only [List.mem_append, List.mem_singleton] at hc
          rcases hc with hc | hc
          · obtain ⟨ht, hne, hk⟩ := hinv.child_rec current nc c hcur hc
            exact ⟨ht, hne, by rwa [keys_addChild]⟩
          · subst hc
            exact ⟨hrpair ▸ hr, h2, by rw [keys_addChild]; exact hmemc⟩
        · obtain ⟨ht, hne, hk⟩ := hinv.child_rec p n c hold hc
          exact ⟨ht, hne, by rwa [keys_addChild]⟩
      · intro p hp
        rw [keys_addChild] at hp
        exact (hinv.reach p hp).mono (fun a b h => edge_addChild _ _ _ _ _ h)
      · intro p hp
        rw [keys_addChild] at hp
        exact hinv.keys_sub p hp
      · exact ⟨_, hself, by simpa using hd⟩
      · simp [buildMeasure, keys_addChild]
    | none =>
      rw [stepRecord_fresh _ _ _ _ h1 h2 hlk]
      have hfresh : r.1 ∉ keys s.tree := (lookupNode_eq_none_iff _ _).mp hlk
      have hrootne : r.1 ≠ root := fun e => hfresh (e ▸ hinv.root_mem)
      have hkeys3 : keys ((r.1, (⟨r.1, current, [], d + 1⟩ : ProcessNode)) ::
          addChild s.tree current r.1) = r.1 :: keys s.tree := by
        simp [keys_addChild]
      have hselfA : lookupNode (addChild s.tree current r.1) current =
          some { nc with children := nc.children ++ [r.1] } := by
        rw [lookupNode_addChild_self, hcur]; rfl
      have hlkcur3 : lookupNode ((r.1, (⟨r.1, current, [], d + 1⟩ : ProcessNode)) ::
          addChild s.tree current r.1) current =
          some { nc with children := nc.children ++ [r.1] } := by
        rw [lookupNode_cons, if_neg h2.symm]; exact hselfA
      have hlknew : lookupNode ((r.1, (⟨r.1, current, [], d + 1⟩ : ProcessNode)) ::
          addChild s.tree current r.1) r.1 =
          some ⟨r.1, current, [], d + 1⟩ := by
        rw [lookupNode_cons, if_pos rfl]
      have hchar : ∀ p n, lookupNode ((r.1, (⟨r.1, current, [], d + 1⟩ : ProcessNode)) ::
          addChild s.tree current r.1) p = some n →
          (p = r.1 ∧ n = ⟨r.1, current, [], d + 1⟩) ∨
          (p = current ∧ n = { nc with children := nc.children ++ [r.1] }) ∨
          (p ≠ r.1 ∧ p ≠ current ∧ lookupNode s.tree p = some n) := by
        intro p n h
        by_cases hp1 : p = r.1
        · subst hp1; rw [hlknew] at h
          exact Or.inl ⟨rfl, (Option.some_inj.mp h).symm⟩
        · rw [lookupNode_cons, if_neg hp1] at h
          by_cases hpc : p = current
          · subst hpc; rw [hselfA] at h
            exact Or.inr (Or.inl ⟨rfl, (Option.some_inj.mp h).symm⟩)
          · rw [lookupNode_addChild_other _ _ _ _ hpc] at h
            exact Or.inr (Or.inr ⟨hp1, hpc, h⟩)
      have hmono : ∀ a b, Edge s.tree a b →
          Edge ((r.1, (⟨r.1, current, [], d + 1⟩ : ProcessNode)) ::
            addChild s.tree current r.1) a b := by
        intro a b h
        exact edge_insert_fresh _ _ _ _ _ (by rw [keys_addChild]; exact hfresh)
          (edge_addChild _ _ _ _ _ h)
      refine ⟨⟨?_, ?_, ?_, ?_, ?_, ?_, ?_, ?_, ?_, ?_, ?_, ?_⟩, ?_, ?_, rfl⟩
      · show (keys _).Nodup
        rw [hkeys3]
        exact List.Nodup.cons hfresh hinv.keys_nodup
      · intro p n h
        rcases hchar p n h with ⟨hp, hn⟩ | ⟨hp, hn⟩ | ⟨_, _, hold⟩
        · subst hn; rw [hp]
        · subst hn; rw [hp]; simpa using hinv.pid_eq _ _ hcur
        · exact hinv.pid_eq _ _ hold
      · intro p hp
        show p ∈ keys _
        rw [hkeys3]
        simp only [List.mem_append, List.mem_singleton] at hp
        rcases hp with hp | hp
        · exact List.mem_cons_of_mem _ (hinv.queue_keys p hp)
        · subst hp; exact List.mem_cons_self _ _
      · intro p hp
        show p ∈ keys _
        rw [hkeys3]
        exact List.mem_cons_of_mem _ (hinv.expanded_keys p hp)
      · show (s.expanded ++ (s.queue ++ [r.1])).Nodup
        rw [← List.append_assoc]
        refine List.Nodup.append hinv.exp_queue_nodup (List.nodup_singleton _) ?_
        intro x hx hx1
        rw [List.mem_singleton] at hx1
        subst hx1
        rcases List.mem_append.mp hx with hx | hx
        · exact hfresh (hinv.expanded_keys _ hx)
        · exact hfresh (hinv.queue_keys _ hx)
      · show root ∈ keys _
        rw [hkeys3]
        exact List.mem_cons_of_mem _ hinv.root_mem
      · intro n h
        rcases hchar root n h with ⟨hp, _⟩ | ⟨hp, hn⟩ | ⟨_, _, hold⟩
        · exact absurd hp.symm hrootne
        · subst hn
          have := hinv.root_node nc (by rw [hp]; exact hcur)
          simpa using this
        · exact hinv.root_node _ hold
      · intro p n h hmem
        rcases hchar p n h with ⟨hp, hn⟩ | ⟨hp, hn⟩ | ⟨_, _, hold⟩
        · subst hn; simp at hmem
        · subst hn
          rw [hp] at hmem
          simp only [List.mem_append, List.mem_singleton] at hmem
          rcases hmem with hmem | hmem
          · exact hinv.no_self_child _ _ hcur hmem
          · exact h2 hmem.symm
        · exact hinv.no_self_child _ _ hold hmem
      · intro p n h hproot
        rcases hchar p n h with ⟨hp, hn⟩ | ⟨hp, hn⟩ | ⟨hp1, hpc, hold⟩
        · subst hn
          refine ⟨{ nc with children := nc.children ++ [r.1] }, hlkcur3, ?_⟩
          simp [hd]
        · subst hn
          rw [hp] at hproot
          obtain ⟨m, hm, hdm⟩ := hinv.depth_parent current nc hcur hproot
          simp only
          by_cases hpc : nc.parent_pid = current
          · rw [hpc, hcur] at hm
            have : m = nc := Option.some_inj.mp hm.symm
            subst this; omega
          · have hpk : nc.parent_pid ∈ keys s.tree := mem_keys_of_lookupNode _ _ _ hm
            have hp1 : nc.parent_pid ≠ r.1 := fun e => hfresh (e ▸ hpk)
            refine ⟨m, ?_, hdm⟩
            rw [lookupNode_cons, if_neg hp1, lookupNode_addChild_other _ _ _ _ hpc]
            exact hm
        · obtain ⟨m, hm, hdm⟩ := hinv.depth_parent p n hold hproot
          have hpk : n.parent_pid ∈ keys s.tree := mem_keys_of_lookupNode _ _ _ hm
          have hpne1 : n.parent_pid ≠ r.1 := fun e => hfresh (e ▸ hpk)
          by_cases hpcur : n.parent_pid = current
          · refine ⟨{ nc with children := nc.children ++ [r.1] },
              by rw [hpcur]; exact hlkcur3, ?_⟩
            rw [hpcur, hcur] at hm
            have : m = nc := Option.some_inj.mp hm.symm
            subst this; simpa using hdm
          · refine ⟨m, ?_, hdm⟩
            rw [lookupNode_cons, if_neg hpne1, lookupNode_addChild_other _ _ _ _ hpcur]
            exact hm
      · intro p n c h hc
        rcases hchar p n h with ⟨hp, hn⟩ | ⟨hp, hn⟩ | ⟨_, _, hold⟩
        · subst hn; simp at hc
        · subst hn
          rw [hp]
          simp only [List.mem_append, List.mem_singleton] at hc
          rcases hc with hc | hc
          · obtain ⟨ht, hne, hk⟩ := hinv.child_rec current nc c hcur hc
            exact ⟨ht, hne, by rw [hkeys3]; exact List.mem_cons_of_mem _ hk⟩
          · subst hc
            exact ⟨hrpair ▸ hr, h2, by rw [hkeys3]; exact List.mem_cons_self _ _⟩
        · obtain ⟨ht, hne, hk⟩ := hinv.child_rec p n c hold hc
          exact ⟨ht, hne, by rw [hkeys3]; exact List.mem_cons_of_mem _ hk⟩
      · intro p hp
        rw [hkeys3] at hp
        rcases List.mem_cons.mp hp with hp | hp
        · subst hp
          refine Relation.ReflTransGen.tail
            ((hinv.reach current hcurmem).mono hmono) ?_
          exact ⟨{ nc with children := nc.children ++ [r.1] }, hlkcur3, by simp⟩
        · exact (hinv.reach p hp).mono hmono
      · intro p hp
        rw [hkeys3] at hp
        rcases List.mem_cons.mp hp with hp | hp
        · subst hp; exact Or.inr hrfst
        · exact hinv.keys_sub p hp
      · exact ⟨_, hlkcur3, by simpa using hd⟩
      · show 2 * ((root :: table.map Prod.fst).toFinset \ (keys _).toFinset).card
            + (s.queue ++ [r.1]).length ≤ buildMeasure table root s
        rw [hkeys3]
        have hcmem : r.1 ∈ (root :: table.map Prod.fst).toFinset \
            (keys s.tree).toFinset := by
          rw [Finset.mem_sdiff]
          constructor
          · rw [List.mem_toFinset]
            exact List.mem_cons_of_mem _ hrfst
          · rw [List.mem_toFinset]
            exact hfresh
        have hsub : (root :: table.map Prod.fst).toFinset \
            (r.1 :: keys s.tree).toFinset ⊆
            ((root :: table.map Prod.fst).toFinset \
              (keys s.tree).toFinset).erase r.1 := by
          intro x hx
          simp only [Finset.mem_sdiff, Finset.mem_erase, List.mem_toFinset,
            List.mem_cons] at hx ⊢
          exact ⟨fun e => hx.2 (Or.inl e), hx.1, fun m => hx.2 (Or.inr m)⟩
        have hcard := Finset.card_le_card hsub
        rw [Finset.card_erase_of_mem hcmem] at hcard
        have hpos : 1 ≤ ((root :: table.map Prod.fst).toFinset \
            (keys s.tree).toFinset).card := Finset.card_pos.mpr ⟨r.1, hcmem⟩
        simp only [buildMeasure, List.length_append, List.length_singleton]
        omega

theorem expand_preserves (table : List (Nat × Nat)) (root current d : Nat) :
    ∀ (tbl : List (Nat × Nat)), (∀ x ∈ tbl, x ∈ table) →
    ∀ (s : BuildState), BInv table root s →
    ∀ nc, lookupNode s.tree current = some nc → nc.depth = d →
    BInv table root (List.foldl (stepRecord current d) s tbl) ∧
    buildMeasure table root (List.foldl (stepRecord current d) s tbl) ≤
      buildMeasure table root s ∧
    (List.foldl (stepRecord current d) s tbl).expanded = s.expanded := by
  intro tbl
  induction tbl with
  | nil =>
    intro _ s hinv nc hcur hd
    exact ⟨hinv, le_refl _, rfl⟩
  | cons r tbl ih =>
    intro hsub s hinv nc hcur hd
    obtain ⟨hinv1, ⟨nc2, hcur2, hd2⟩, hm1, he1⟩ :=
      stepRecord_preserves table root current d r (hsub r (by simp)) s hinv nc hcur hd
    obtain ⟨hinv2, hm2, he2⟩ :=
      ih (fun x hx => hsub x (by simp [hx])) _ hinv1 nc2 hcur2 hd2
    simp only [List.foldl_cons]
    exact ⟨hinv2, le_trans hm2 hm1, by rw [he2, he1]⟩

theorem buildStep_preserves (table : List (Nat × Nat)) (root : Nat)
    (s : BuildState) (hinv : BInv table root s) :
    BInv table root (buildStep table s) ∧
    (s.queue ≠ [] →
      buildMeasure table root (buildStep table s) < buildMeasure table root s) := by
  cases hq : s.queue with
  | nil =>
    simp only [buildStep, hq]
    exact ⟨hinv, fun h => absurd rfl h⟩
  | cons current rest =>
    have hcurk : current ∈ keys s.tree := hinv.queue_keys current (by rw [hq]; simp)
    obtain ⟨nc, hcur⟩ : ∃ nc, lookupNode s.tree current = some nc := by
      have := (lookupNode_isSome_iff_mem_keys s.tree current).mpr hcurk
      cases h : lookupNode s.tree current
      · rw [h] at this; simp at this
      · exact ⟨_, rfl⟩
    have hinv1 : BInv table root
        ⟨s.tree, rest, s.expanded ++ [current]⟩ := by
      refine ⟨hinv.keys_nodup, hinv.pid_eq, ?_, ?_, ?_, hinv.root_mem,
        hinv.root_node, hinv.no_self_child, hinv.depth_parent, hinv.child_rec,
        hinv.reach, hinv.keys_sub⟩
      · intro p hp
        exact hinv.queue_keys p (by rw [hq]; exact List.mem_cons_of_mem _ hp)
      · intro p hp
        rcases List.mem_append.mp hp with hp | hp
        · exact hinv.expanded_keys p hp
        · rw [List.mem_singleton] at hp
          subst hp; exact hcurk
      · show ((s.expanded ++ [current]) ++ rest).Nodup
        have := hinv.exp_queue_nodup
        rw [hq, List.append_cons] at this
        exact this
    have hd : ((lookupNode s.tree current).map ProcessNode.depth).getD 0 = nc.depth := by
      rw [hcur]; rfl
    obtain ⟨hinv2, hm2, _⟩ := expand_preserves table root current
      (((lookupNode s.tree current).map ProcessNode.depth).getD 0)
      table (fun x hx => hx) ⟨s.tree, rest, s.expanded ++ [current]⟩ hinv1 nc hcur hd.symm
    constructor
    · simpa only [buildStep, hq, expandChildren] using hinv2
    · intro _
      have hm1 : buildMeasure table root ⟨s.tree, rest, s.expanded ++ [current]⟩ + 1 =
          buildMeasure table root s := by
        simp only [buildMeasure, hq, List.length_cons]
        omega
      simp only [buildStep, hq, expandChildren]
      omega

theorem buildAux_inv (table : List (Nat × Nat)) (root : Nat) :
    ∀ (fuel : Nat) (s : BuildState), BInv table root s →
    BInv table root (buildAux table fuel s) := by
  intro fuel
  induction fuel with
  | zero => intro s hinv; exact hinv
  | succ fuel ih =>
    intro s hinv
    cases hq : s.queue with
    | nil => simpa only [buildAux, hq] using hinv
    | cons current rest =>
      simp only [buildAux, hq]
      exact ih _ (buildStep_preserves table root s hinv).1

theorem buildAux_queue_empty (table : List (Nat × Nat)) (root : Nat) :
    ∀ (fuel : Nat) (s : BuildState), BInv table root s →
    buildMeasure table root s ≤ fuel → (buildAux table fuel s).queue = [] := by
  intro fuel
  induction fuel with
  | zero =>
    intro s _ hm
    simp only [buildMeasure] at hm
    have : s.queue.length = 0 := by omega
    have hq := List.length_eq_zero.mp this
    simp only [buildAux, hq]
  | succ fuel ih =>
    intro s hinv hm
    cases hq : s.queue with
    | nil => simp only [buildAux, hq]
    | cons current rest =>
      simp only [buildAux, hq]
      obtain ⟨hinv2, hlt⟩ := buildStep_preserves table root s hinv
      exact ih _ hinv2 (by have := hlt (by rw [hq]; simp); omega)

theorem initState_inv (table : List (Nat × Nat)) (root : Nat) :
    BInv table root (initState root) := by
  have hlook : ∀ p n, lookupNode (initState root).tree p = some n →
      p = root ∧ n = ProcessNode.new root 0 := by
    intro p n h
    simp only [initState, lookupNode_cons, lookupNode_nil] at h
    by_cases hp : p = root
    · rw [if_pos hp] at h
      exact ⟨hp, (Option.some_inj.mp h).symm⟩
    · rw [if_neg hp] at h; exact absurd h (by simp)
  refine ⟨?_, ?_, ?_, ?_, ?_, ?_, ?_, ?_, ?_, ?_, ?_, ?_⟩
  · simp [initState, keys]
  · intro p n h
    obtain ⟨hp, hn⟩ := hlook p n h
    subst hp; subst hn; rfl
  · intro p hp
    simp only [initState, List.mem_singleton] at hp
    subst hp; simp [initState, keys]
  · intro p hp
    simp [initState] at hp
  · simp [initState]
  · simp [initState, keys]
  · intro n h
    obtain ⟨_, hn⟩ := hlook root n h
    subst hn; exact ⟨rfl, rfl⟩
  · intro p n h hmem
    obtain ⟨_, hn⟩ := hlook p n h
    subst hn; simp [ProcessNode.new] at hmem
  · intro p n h hproot
    obtain ⟨hp, _⟩ := hlook p n h
    exact absurd hp hproot
  · intro p n c h hc
    obtain ⟨_, hn⟩ := hlook p n h
    subst hn; simp [ProcessNode.new] at hc
  · intro p hp
    simp only [initState, keys, List.map_cons, List.map_nil,
      List.mem_singleton] at hp
    subst hp; exact Relation.ReflTransGen.refl
  · intro p hp
    simp only [initState, keys, List.map_cons, List.map_nil,
      List.mem_singleton] at hp
    exact Or.inl hp

theorem initState_measure (table : List (Nat × Nat)) (root : Nat) :
    buildMeasure table root (initState root) ≤ buildFuel table := by
  have hsub : (root :: table.map Prod.fst).toFinset \
      (keys (initState root).tree).toFinset ⊆ (table.map Prod.fst).toFinset := by
    intro x hx
    simp only [initState, keys, List.map_cons, List.map_nil, Finset.mem_sdiff,
      List.mem_toFinset, List.mem_cons, List.mem_singleton] at hx
    rcases hx.1 with h | h
    · exact absurd h (by simpa using hx.2)
    · exact List.mem_toFinset.mpr h
  have h1 := Finset.card_le_card hsub
  have h2 := (table.map Prod.fst).toFinset_card_le
  rw [List.length_map] at h2
  have h1b := Finset.card_le_card hsub
  have hq1 : (initState root).queue.length = 1 := rfl
  simp only [buildMeasure, buildFuel]
  omega

theorem build_final_inv (table : List (Nat × Nat)) (root : Nat) :
    BInv table root (buildAux table (buildFuel table) (initState root)) :=
  buildAux_inv table root _ _ (initState_inv table root)

theorem build_final_queue (table : List (Nat × Nat)) (root : Nat) :
    (buildAux table (buildFuel table) (initState root)).queue = [] :=
  buildAux_queue_empty table root _ _ (initState_inv table root)
    (initState_measure table root)


@[simp]
theorem dfsAux_zero (tree : Tree) (pid : Nat) (s : DfsState) :
    dfsAux tree 0 pid s = s := rfl

theorem dfsAux_visited (tree : Tree) (fuel pid : Nat) (s : DfsState)
    (h : pid ∈ s.visited) : dfsAux tree (fuel + 1) pid s = s := by
  simp [dfsAux, h]

theorem dfsAux_not_found (tree : Tree) (fuel pid : Nat) (s : DfsState)
    (h : pid ∉ s.visited) (hlk : lookupNode tree pid = none) :
    dfsAux tree (fuel + 1) pid s = ⟨pid :: s.visited, s.result⟩ := by
  simp [dfsAux, h, hlk]

theorem dfsAux_found (tree : Tree) (fuel pid : Nat) (s : DfsState)
    (node : ProcessNode) (h : pid ∉ s.visited)
    (hlk : lookupNode tree pid = some node) :
    dfsAux tree (fuel + 1) pid s =
      ⟨(dfsList tree fuel node.children ⟨pid :: s.visited, s.result⟩).visited,
        (dfsList tree fuel node.children ⟨pid :: s.visited, s.result⟩).result
          ++ [pid]⟩ := by
  simp [dfsAux, h, hlk, dfsList]

@[simp]
theorem dfsList_nil (tree : Tree) (fuel : Nat) (s : DfsState) :
    dfsList tree fuel [] s = s := rfl

@[simp]
theorem dfsList_cons (tree : Tree) (fuel c : Nat) (cs : List Nat) (s : DfsState) :
    dfsList tree fuel (c :: cs) s = dfsList tree fuel cs (dfsAux tree fuel c s) := rfl

/-- `a` occurs strictly before `b` in the list `r`. -/
def Before (r : List Nat) (a b : Nat) : Prop :=
  ∃ i j : Nat, i < j ∧ r[i]? = some a ∧ r[j]? = some b

theorem Before.append (r l : List Nat) (a b : Nat) (h : Before r a b) :
    Before (r ++ l) a b := by
  obtain ⟨i, j, hij, ha, hb⟩ := h
  have hj : j < r.length := (List.getElem?_eq_some.mp hb).1
  have hi : i < r.length := lt_trans hij hj
  exact ⟨i, j, hij, by rw [List.getElem?_append_left hi]; exact ha,
    by rw [List.getElem?_append_left hj]; exact hb⟩

theorem Before.concat_of_mem (r : List Nat) (a b : Nat) (h : a ∈ r) :
    Before (r ++ [b]) a b := by
  obtain ⟨i, hi, ha⟩ := List.getElem_of_mem h
  exact ⟨i, r.length, hi,
    by rw [List.getElem?_append_left hi]; exact List.getElem?_eq_some.mpr ⟨hi, ha⟩,
    List.getElem?_concat_length r b⟩

theorem Before.mem_left (r : List Nat) (a b : Nat) (h : Before r a b) : a ∈ r := by
  obtain ⟨i, _, _, ha, _⟩ := h
  exact List.getElem?_mem ha

/-- Number of relevant pids not yet visited: the decreasing measure of the
`dfs` recursion. -/
def dfsMeasure (tree : Tree) (root : Nat) (s : DfsState) : Nat :=
  ((relevant tree root).toFinset \ s.visited.toFinset).card

theorem dfsMeasure_mono (tree : Tree) (root : Nat) (s s2 : DfsState)
    (h : ∀ x ∈ s.visited, x ∈ s2.visited) :
    dfsMeasure tree root s2 ≤ dfsMeasure tree root s := by
  apply Finset.card_le_card
  intro x hx
  rw [Finset.mem_sdiff, List.mem_toFinset] at hx ⊢
  exact ⟨hx.1, fun hm => hx.2 (List.mem_toFinset.mpr (h x (List.mem_toFinset.mp hm)))⟩

theorem dfsMeasure_insert (tree : Tree) (root pid : Nat) (s : DfsState)
    (hrel : pid ∈ relevant tree root) (hv : pid ∉ s.visited) (r2 : List Nat) :
    dfsMeasure tree root ⟨pid :: s.visited, r2⟩ < dfsMeasure tree root s := by
  apply Finset.card_lt_card
  constructor
  · intro x hx
    rw [Finset.mem_sdiff, List.mem_toFinset, List.mem_toFinset] at hx ⊢
    exact ⟨hx.1, fun hm => hx.2 (List.mem_cons_of_mem _ hm)⟩
  · intro hsub
    have : pid ∈ (relevant tree root).toFinset \ s.visited.toFinset := by
      rw [Finset.mem_sdiff, List.mem_toFinset, List.mem_toFinset]
      exact ⟨hrel, hv⟩
    have := hsub this
    rw [Finset.mem_sdiff, List.mem_toFinset] at this
    exact this.2 (by simp)

theorem dfsAux_delta (tree : Tree) :
    ∀ (fuel pid : Nat) (s : DfsState),
      ∃ dl, (dfsAux tree fuel pid s).result = s.result ++ dl ∧
        dl.Nodup ∧
        (∀ x ∈ dl, x ∉ s.visited ∧ x ∈ (dfsAux tree fuel pid s).visited) ∧
        (∀ x ∈ s.visited, x ∈ (dfsAux tree fuel pid s).visited) := by
  intro fuel
  induction fuel with
  | zero =>
    intro pid s
    exact ⟨[], by simp, by simp, by simp, fun x hx => hx⟩
  | succ fuel ih =>
    intro pid s
    by_cases hv : pid ∈ s.visited
    · rw [dfsAux_visited _ _ _ _ hv]
      exact ⟨[], by simp, by simp, by simp, fun x hx => hx⟩
    · cases hlk : lookupNode tree pid with
      | none =>
        rw [dfsAux_not_found _ _ _ _ hv hlk]
        exact ⟨[], by simp, by simp, by simp,
          fun x hx => List.mem_cons_of_mem _ hx⟩
      | some node =>
        rw [dfsAux_found _ _ _ _ node hv hlk]
        have hlist : ∀ (cs : List Nat) (s1 : DfsState),
            ∃ dl, (dfsList tree fuel cs s1).result = s1.result ++ dl ∧
              dl.Nodup ∧
              (∀ x ∈ dl, x ∉ s1.visited ∧ x ∈ (dfsList tree fuel cs s1).visited) ∧
              (∀ x ∈ s1.visited, x ∈ (dfsList tree fuel cs s1).visited) := by
          intro cs
          induction cs with
          | nil =>
            intro s1
            exact ⟨[], by simp, by simp, by simp, fun x hx => hx⟩
          | cons c cs ihc =>
            intro s1
            obtain ⟨d1, h1r, h1n, h1f, h1m⟩ := ih c s1
            obtain ⟨d2, h2r, h2n, h2f, h2m⟩ := ihc (dfsAux tree fuel c s1)
            refine ⟨d1 ++ d2, ?_, ?_, ?_, ?_⟩
            · rw [dfsList_cons, h2r, h1r, List.append_assoc]
            · refine List.Nodup.append h1n h2n ?_
              intro x hx1 hx2
              exact (h2f x hx2).1 ((h1f x hx1).2)
            · intro x hx
              rcases List.mem_append.mp hx with hx | hx
              · exact ⟨(h1f x hx).1, by rw [dfsList_cons]; exact h2m x (h1f x hx).2⟩
              · exact ⟨fun hm => (h2f x hx).1 (h1m x hm),
                  by rw [dfsList_cons]; exact (h2f x hx).2⟩
            · intro x hx
              rw [dfsList_cons]
              exact h2m x (h1m x hx)
        obtain ⟨dl, hr, hn, hf, hm⟩ := hlist node.children ⟨pid :: s.visited, s.result⟩
        refine ⟨dl ++ [pid], ?_, ?_, ?_, ?_⟩
        · show (dfsList tree fuel node.children _).result ++ [pid] = _
          rw [hr, List.append_assoc]
        · refine List.Nodup.append hn (List.nodup_singleton _) ?_
          intro x hx1 hx2
          rw [List.mem_singleton] at hx2
          subst hx2
          exact (hf x hx1).1 (by simp)
        · intro x hx
          rcases List.mem_append.mp hx with hx | hx
          · exact ⟨fun hm => (hf x hx).1 (List.mem_cons_of_mem _ hm), (hf x hx).2⟩
          · rw [List.mem_singleton] at hx
            subst hx
            exact ⟨hv, hm x (by simp)⟩
        · intro x hx
          exact hm x (List.mem_cons_of_mem _ hx)

/-- The kill order never repeats a pid, for any tree map (the `visited`
set deduplicates even cyclic or duplicated children lists). -/
theorem get_processes_in_dfs_order_nodup (tree : Tree) (root : Nat) :
    (get_processes_in_dfs_order tree root).Nodup := by
  obtain ⟨dl, hr, hn, _, _⟩ := dfsAux_delta tree (dfsFuel tree root) root ⟨[], []⟩
  rw [get_processes_in_dfs_order, hr]
  simpa using hn


/-- Invariant of the `dfs` recursion relative to the ambient call `stack`
(the pids whose calls are in progress): the visited set decomposes into
emitted pids, stack pids, and pids with no node; the result is duplicate
free, contains only tree pids, and is post-ordered (each emitted node's
tree children occur strictly earlier). -/
structure DInv (tree : Tree) (stack : List Nat) (s : DfsState) : Prop where
  visited_cases : ∀ x ∈ s.visited, x ∈ s.result ∨ x ∈ stack ∨ lookupNode tree x = none
  result_visited : ∀ x ∈ s.result, x ∈ s.visited
  stack_visited : ∀ x ∈ stack, x ∈ s.visited
  result_nodup : s.result.Nodup
  result_keys : ∀ x ∈ s.result, (lookupNode tree x).isSome
  result_order : ∀ p n c, p ∈ s.result → lookupNode tree p = some n →
    c ∈ n.children → (lookupNode tree c).isSome → Before s.result c p
  stack_result : ∀ x ∈ stack, x ∉ s.result

theorem dfsAux_main (tree : Tree) (root : Nat)
    (hacyc : ∀ x, ¬ Relation.TransGen (Edge tree) x x) :
    ∀ (fuel pid : Nat) (s : DfsState) (stack : List Nat),
      pid ∈ relevant tree root →
      (∀ x ∈ stack, Relation.TransGen (Edge tree) x pid) →
      dfsMeasure tree root s < fuel →
      DInv tree stack s →
      DInv tree stack (dfsAux tree fuel pid s) ∧
      (∃ dl, (dfsAux tree fuel pid s).result = s.result ++ dl) ∧
      (∀ x ∈ s.visited, x ∈ (dfsAux tree fuel pid s).visited) ∧
      pid ∈ (dfsAux tree fuel pid s).visited := by
  intro fuel
  induction fuel with
  | zero =>
    intro pid s stack _ _ hm _
    exact absurd hm (Nat.not_lt_zero _)
  | succ fuel ih =>
    intro pid s stack hrel hstack hm hinv
    by_cases hv : pid ∈ s.visited
    · rw [dfsAux_visited _ _ _ _ hv]
      exact ⟨hinv, ⟨[], by simp⟩, fun x hx => hx, hv⟩
    · cases hlk : lookupNode tree pid with
      | none =>
        rw [dfsAux_not_found _ _ _ _ hv hlk]
        refine ⟨⟨?_, ?_, ?_, hinv.result_nodup, hinv.result_keys,
          hinv.result_order, hinv.stack_result⟩, ⟨[], by simp⟩,
          fun x hx => List.mem_cons_of_mem _ hx, by simp⟩
        · intro x hx
          rcases List.mem_cons.mp hx with hx | hx
          · subst hx; exact Or.inr (Or.inr hlk)
          · exact hinv.visited_cases x hx
        · intro x hx
          exact List.mem_cons_of_mem _ (hinv.result_visited x hx)
        · intro x hx
          exact List.mem_cons_of_mem _ (hinv.stack_visited x hx)
      | some node =>
        rw [dfsAux_found _ _ _ _ node hv hlk]
        have hm1 : dfsMeasure tree root ⟨pid :: s.visited, s.result⟩ <
            dfsMeasure tree root s := dfsMeasure_insert tree root pid s hrel hv _
        have hinv1 : DInv tree (pid :: stack) ⟨pid :: s.visited, s.result⟩ := by
          refine ⟨?_, ?_, ?_, hinv.result_nodup, hinv.result_keys,
            hinv.result_order, ?_⟩
          · intro x hx
            rcases List.mem_cons.mp hx with hx | hx
            · subst hx; exact Or.inr (Or.inl (by simp))
            · rcases hinv.visited_cases x hx with h | h | h
              · exact Or.inl h
              · exact Or.inr (Or.inl (List.mem_cons_of_mem _ h))
              · exact Or.inr (Or.inr h)
          · intro x hx
            exact List.mem_cons_of_mem _ (hinv.result_visited x hx)
          · intro x hx
            rcases List.mem_cons.mp hx with hx | hx
            · subst hx; simp
            · exact List.mem_cons_of_mem _ (hinv.stack_visited x hx)
          · intro x hx
            rcases List.mem_cons.mp hx with hx | hx
            · subst hx
              exact fun hr => hv (hinv.result_visited x hr)
            · exact hinv.stack_result x hx
        have hchild_edge : ∀ c ∈ node.children, Edge tree pid c :=
          fun c hc => ⟨node, hlk, hc⟩
        have hchild_rel : ∀ c ∈ node.children, c ∈ relevant tree root := by
          intro c hc
          have hmemt : (pid, node) ∈ tree := lookupNode_mem _ _ _ hlk
          simp only [relevant, List.mem_cons, List.mem_append, List.mem_flatMap]
          exact Or.inr ⟨(pid, node), hmemt, hc⟩
        have hstack1 : ∀ c ∈ node.children, ∀ x ∈ pid :: stack,
            Relation.TransGen (Edge tree) x c := by
          intro c hc x hx
          rcases List.mem_cons.mp hx with hx | hx
          · subst hx; exact Relation.TransGen.single (hchild_edge c hc)
          · exact Relation.TransGen.tail (hstack x hx) (hchild_edge c hc)
        have hfold : ∀ (cs : List Nat), (∀ c ∈ cs, c ∈ node.children) →
            ∀ (s1 : DfsState), DInv tree (pid :: stack) s1 →
            dfsMeasure tree root s1 < fuel →
            DInv tree (pid :: stack) (dfsList tree fuel cs s1) ∧
            (∃ dl, (dfsList tree fuel cs s1).result = s1.result ++ dl) ∧
            (∀ x ∈ s1.visited, x ∈ (dfsList tree fuel cs s1).visited) ∧
            (∀ c ∈ cs, c ∈ (dfsList tree fuel cs s1).visited) := by
          intro cs
          induction cs with
          | nil =>
            intro _ s1 hinvA _
            exact ⟨hinvA, ⟨[], by simp⟩, fun x hx => hx, by simp⟩
          | cons c cs ihc =>
            intro hsub s1 hinvA hmA
            obtain ⟨hinvB, ⟨d1, hd1⟩, hmonB, hmemB⟩ :=
              ih c s1 (pid :: stack) (hchild_rel c (hsub c (by simp)))
                (hstack1 c (hsub c (by simp))) hmA hinvA
            have hmB : dfsMeasure tree root (dfsAux tree fuel c s1) < fuel :=
              lt_of_le_of_lt (dfsMeasure_mono _ _ _ _ hmonB) hmA
            obtain ⟨hinvC, ⟨d2, hd2⟩, hmonC, hmemC⟩ :=
              ihc (fun x hx => hsub x (by simp [hx])) _ hinvB hmB
            refine ⟨by rw [dfsList_cons]; exact hinvC,
              ⟨d1 ++ d2, by rw [dfsList_cons, hd2, hd1, List.append_assoc]⟩,
              fun x hx => by rw [dfsList_cons]; exact hmonC x (hmonB x hx), ?_⟩
            intro c0 hc0
            rcases List.mem_cons.mp hc0 with hc0 | hc0
            · subst hc0; rw [dfsList_cons]; exact hmonC _ hmemB
            · rw [dfsList_cons]; exact hmemC c0 hc0
        obtain ⟨hinv2, ⟨dl, hdl⟩, hmon2, hmem2⟩ :=
          hfold node.children (fun c hc => hc) ⟨pid :: s.visited, s.result⟩
            hinv1 (by omega)
        have hpidv2 : pid ∈ (dfsList tree fuel node.children
            ⟨pid :: s.visited, s.result⟩).visited := hmon2 pid (by simp)
        have hpidnotres2 : pid ∉ (dfsList tree fuel node.children
            ⟨pid :: s.visited, s.result⟩).result := hinv2.stack_result pid (by simp)
        have hpid_not_stack : pid ∉ stack := fun hx => hacyc pid (hstack pid hx)
        have hchild_res : ∀ c ∈ node.children, (lookupNode tree c).isSome →
            c ∈ (dfsList tree fuel node.children
              ⟨pid :: s.visited, s.result⟩).result := by
          intro c hc hck
          rcases hinv2.visited_cases c (hmem2 c hc) with h | h | h
          · exact h
          · rcases List.mem_cons.mp h with h | h
            · subst h
              exact absurd (Relation.TransGen.single (hchild_edge c hc)) (hacyc c)
            · exact absurd (Relation.TransGen.tail (hstack c h) (hchild_edge c hc))
                (hacyc c)
          · rw [h] at hck; simp at hck
        refine ⟨⟨?_, ?_, ?_, ?_, ?_, ?_, ?_⟩,
          ⟨dl ++ [pid], by show _ ++ [pid] = _; rw [hdl, List.append_assoc]⟩,
          fun x hx => hmon2 x (List.mem_cons_of_mem _ hx), hpidv2⟩
        · intro x hx
          rcases hinv2.visited_cases x hx with h | h | h
          · exact Or.inl (List.mem_append.mpr (Or.inl h))
          · rcases List.mem_cons.mp h with h | h
            · subst h; exact Or.inl (List.mem_append.mpr (Or.inr (by simp)))
            · exact Or.inr (Or.inl h)
          · exact Or.inr (Or.inr h)
        · intro x hx
          rcases List.mem_append.mp hx with hx | hx
          · exact hinv2.result_visited x hx
          · rw [List.mem_singleton] at hx; subst hx; exact hpidv2
        · intro x hx
          exact hinv2.stack_visited x (List.mem_cons_of_mem _ hx)
        · refine List.Nodup.append hinv2.result_nodup (List.nodup_singleton _) ?_
          intro x hx1 hx2
          rw [List.mem_singleton] at hx2
          subst hx2; exact hpidnotres2 hx1
        · intro x hx
          rcases List.mem_append.mp hx with hx | hx
          · exact hinv2.result_keys x hx
          · rw [List.mem_singleton] at hx; subst hx; rw [hlk]; rfl
        · intro p n c hp hlkp hcchild hcsome
          rcases List.mem_append.mp hp with hp | hp
          · exact Before.append _ _ _ _
              (hinv2.result_order p n c hp hlkp hcchild hcsome)
          · rw [List.mem_singleton] at hp
            subst hp
            rw [hlk] at hlkp
            have hn : n = node := (Option.some_inj.mp hlkp).symm
            subst hn
            exact Before.concat_of_mem _ _ _ (hchild_res c hcchild hcsome)
        · intro x hx
          intro hmem
          rcases List.mem_append.mp hmem with h | h
          · exact hinv2.stack_result x (List.mem_cons_of_mem _ hx) h
          · rw [List.mem_singleton] at h; subst h; exact hpid_not_stack hx


/-- Acyclicity of a raw process-table snapshot: no pid is its own strict
ancestor under the "is parent of" relation reported by the table (a record
`(c, p)` states that `p` is the parent of `c`). -/
def TableAcyclic (table : List (Nat × Nat)) : Prop :=
  ∀ x, ¬ Relation.TransGen (fun a b => (b, a) ∈ table) x x

theorem Before.trans (r : List Nat) (a b c : Nat) (hnd : r.Nodup)
    (h1 : Before r a b) (h2 : Before r b c) : Before r a c := by
  obtain ⟨i, j, hij, ha, hb⟩ := h1
  obtain ⟨k, l, hkl, hb2, hc⟩ := h2
  have hj : j < r.length := (List.getElem?_eq_some.mp hb).1
  have hjk : j = k := List.getElem?_inj hj hnd (hb.trans hb2.symm)
  exact ⟨i, l, by omega, ha, hc⟩

/-- In a built tree, every children edge is backed by a table record. -/
theorem built_edge_record (table : List (Nat × Nat)) (root : Nat) (p c : Nat)
    (h : Edge (build_process_tree table root) p c) :
    (c, p) ∈ table ∧ c ≠ p ∧ c ∈ keys (build_process_tree table root) := by
  obtain ⟨n, hn, hc⟩ := h
  exact (build_final_inv table root).child_rec p n c hn hc

/-- If the table is acyclic, so is the children-edge relation of the tree
built from it. -/
theorem built_edge_acyclic (table : List (Nat × Nat)) (root : Nat)
    (hacyc : TableAcyclic table) :
    ∀ x, ¬ Relation.TransGen (Edge (build_process_tree table root)) x x := by
  intro x hx
  exact hacyc x (hx.mono (fun a b h => (built_edge_record table root a b h).1))

/-- The root pid always has a node in the built tree. -/
theorem built_root_mem (table : List (Nat × Nat)) (root : Nat) :
    root ∈ keys (build_process_tree table root) :=
  (build_final_inv table root).root_mem

/-- Full specification of the kill order computed on a built tree from an
acyclic table: it lists exactly the tree's pids, without duplicates, with
the root last, and every strict descendant strictly before its ancestor. -/
theorem dfs_on_built_tree (table : List (Nat × Nat)) (root : Nat)
    (hacyc : TableAcyclic table) :
    (∀ p, p ∈ get_processes_in_dfs_order (build_process_tree table root) root ↔
      p ∈ keys (build_process_tree table root)) ∧
    (get_processes_in_dfs_order (build_process_tree table root) root).Nodup ∧
    (get_processes_in_dfs_order (build_process_tree table root) root).getLast? =
      some root ∧
    (∀ p c, Relation.TransGen (Edge (build_process_tree table root)) p c →
      Before (get_processes_in_dfs_order (build_process_tree table root) root) c p) := by
  have hedgeacyc := built_edge_acyclic table root hacyc
  have hbinv := build_final_inv table root
  obtain ⟨hinv, ⟨dl, hdl⟩, _, hrootv⟩ :=
    dfsAux_main (build_process_tree table root) root hedgeacyc
      (dfsFuel (build_process_tree table root) root) root ⟨[], []⟩ []
      (by simp [relevant])
      (by simp)
      (by
        show dfsMeasure _ root ⟨[], []⟩ < dfsFuel _ root
        simp [dfsMeasure, dfsFuel])
      ⟨by simp, by simp, by simp, List.nodup_nil, by simp, by simp, by simp⟩
  have hrootk : (lookupNode (build_process_tree table root) root).isSome :=
    (lookupNode_isSome_iff_mem_keys _ _).mpr hbinv.root_mem
  have hresult_eq : get_processes_in_dfs_order (build_process_tree table root) root =
      (dfsAux (build_process_tree table root)
        (dfsFuel (build_process_tree table root) root) root ⟨[], []⟩).result := rfl
  have hmem_result : ∀ p, Relation.ReflTransGen (Edge (build_process_tree table root))
      root p → p ∈ get_processes_in_dfs_order (build_process_tree table root) root := by
    intro p hp
    rw [hresult_eq]
    induction hp with
    | refl =>
      rcases hinv.visited_cases root hrootv with h | h | h
      · exact h
      · simp at h
      · rw [h] at hrootk; simp at hrootk
    | tail hstep hedge ihp =>
      obtain ⟨n, hlkx, hcmem⟩ := hedge
      have hcsome : (lookupNode (build_process_tree table root) _).isSome :=
        (lookupNode_isSome_iff_mem_keys _ _).mpr
          (hbinv.child_rec _ n _ hlkx hcmem).2.2
      exact Before.mem_left _ _ _
        (hinv.result_order _ n _ ihp hlkx hcmem hcsome)
  have hcoverage : ∀ p, p ∈ get_processes_in_dfs_order
      (build_process_tree table root) root ↔
      p ∈ keys (build_process_tree table root) := by
    intro p
    constructor
    · intro hp
      rw [hresult_eq] at hp
      exact (lookupNode_isSome_iff_mem_keys _ _).mp (hinv.result_keys p hp)
    · intro hp
      exact hmem_result p (hbinv.reach p hp)
  have hnodup : (get_processes_in_dfs_order (build_process_tree table root) root).Nodup :=
    get_processes_in_dfs_order_nodup _ _
  have horder1 : ∀ p c, Edge (build_process_tree table root) p c →
      Before (get_processes_in_dfs_order (build_process_tree table root) root) c p := by
    intro p c he
    obtain ⟨n, hlkp, hcmem⟩ := he
    have hpk : p ∈ keys (build_process_tree table root) :=
      mem_keys_of_lookupNode _ _ _ hlkp
    have hpres : p ∈ get_processes_in_dfs_order (build_process_tree table root) root :=
      (hcoverage p).mpr hpk
    have hcsome : (lookupNode (build_process_tree table root) c).isSome :=
      (lookupNode_isSome_iff_mem_keys _ _).mpr (hbinv.child_rec p n c hlkp hcmem).2.2
    rw [hresult_eq] at hpres ⊢
    exact hinv.result_order p n c hpres hlkp hcmem hcsome
  refine ⟨hcoverage, hnodup, ?_, ?_⟩
  · obtain ⟨nr, hnr⟩ : ∃ nr, lookupNode (build_process_tree table root) root = some nr := by
      cases h : lookupNode (build_process_tree table root) root
      · rw [h] at hrootk; simp at hrootk
      · exact ⟨_, rfl⟩
    rw [hresult_eq, dfsFuel, dfsAux_found _ _ _ _ nr (by simp) hnr]
    exact List.getLast?_concat _
  · intro p c hpc
    induction hpc with
    | single he => exact horder1 _ _ he
    | tail hstep hedge ihp =>
      exact Before.trans _ _ _ _ hnodup (horder1 _ _ hedge) ihp


@[simp]
theorem individualSends_nil : individualSends [] = [] := rfl

theorem individualSends_append (t1 t2 : List Event) :
    individualSends (t1 ++ t2) = individualSends t1 ++ individualSends t2 := by
  simp [individualSends]

theorem send_signal_group_ok (w : World) (pid : Nat) (force : Bool)
    (h : w.groupKillOk pid = true) :
    send_signal w pid force = [Event.groupSend pid force true] := by
  simp [send_signal, h]

theorem send_signal_group_fail (w : World) (pid : Nat) (force : Bool)
    (h : w.groupKillOk pid = false) :
    send_signal w pid force =
      Event.groupSend pid force false ::
        (get_processes_in_dfs_order (build_process_tree w.table pid) pid).flatMap
          (fun p => Event.checkAlive p (w.alive p) ::
            if w.alive p then [Event.send p force (w.killOk p)] else []) := by
  simp [send_signal, h]

theorem individualSends_checkSend (alive killOk : Nat → Bool) (force : Bool) :
    ∀ l : List Nat,
      individualSends (l.flatMap (fun p => Event.checkAlive p (alive p) ::
        if alive p then [Event.send p force (killOk p)] else [])) =
      l.filter (fun p => alive p) := by
  intro l
  induction l with
  | nil => rfl
  | cons p l ih =>
    by_cases ha : alive p = true
    · have h1 : individualSends (Event.checkAlive p (alive p) ::
          if alive p = true then [Event.send p force (killOk p)] else []) = [p] := by
        rw [if_pos ha]; rfl
      rw [List.flatMap_cons, individualSends_append, h1, ih, List.filter_cons]
      simp [ha]
    · rw [Bool.not_eq_true] at ha
      have h1 : individualSends (Event.checkAlive p (alive p) ::
          if alive p = true then [Event.send p force (killOk p)] else []) = [] := by
        rw [ha]; rfl
      rw [List.flatMap_cons, individualSends_append, h1, ih, List.filter_cons, ha]
      simp

/-- The pids individually signaled by one `send_signal` call: nothing when
the group kill succeeds, otherwise exactly the still-alive pids of the
freshly computed kill order. -/
theorem individualSends_send_signal (w : World) (pid : Nat) (force : Bool) :
    individualSends (send_signal w pid force) =
      if w.groupKillOk pid then []
      else (get_processes_in_dfs_order (build_process_tree w.table pid) pid).filter
        (fun p => w.alive p) := by
  by_cases h : w.groupKillOk pid = true
  · rw [send_signal_group_ok w pid force h, if_pos h]
    rfl
  · rw [Bool.not_eq_true] at h
    rw [send_signal_group_fail w pid force h, if_neg (by simp [h])]
    have hg : ∀ tr : List Event, individualSends (Event.groupSend pid force false :: tr) =
        individualSends tr := fun tr => rfl
    rw [hg, individualSends_checkSend]

/-- Every individual send in the trace is immediately preceded by the
liveness check of the same pid, and that check answered `true`. -/
def ChecksPrecedeSends (tr : List Event) : Prop :=
  ∀ (i p : Nat) (f ok : Bool), tr[i]? = some (Event.send p f ok) →
    ∃ j : Nat, i = j + 1 ∧ tr[j]? = some (Event.checkAlive p true)

theorem checksPrecedeSends_nil : ChecksPrecedeSends [] := by
  intro i p f ok h
  simp at h

theorem ChecksPrecedeSends.cons_not_send (e : Event) (tr : List Event)
    (he : ∀ p f ok, e ≠ Event.send p f ok) (h : ChecksPrecedeSends tr) :
    ChecksPrecedeSends (e :: tr) := by
  intro i p f ok hi
  match i with
  | 0 =>
    rw [List.getElem?_cons_zero] at hi
    exact absurd (Option.some_inj.mp hi) (he p f ok)
  | i + 1 =>
    rw [List.getElem?_cons_succ] at hi
    obtain ⟨j, hj, hcheck⟩ := h i p f ok hi
    exact ⟨j + 1, by omega, by rw [List.getElem?_cons_succ]; exact hcheck⟩

theorem checksPrecedeSends_checkSend (alive killOk : Nat → Bool) (force : Bool) :
    ∀ l : List Nat,
      ChecksPrecedeSends (l.flatMap (fun p => Event.checkAlive p (alive p) ::
        if alive p then [Event.send p force (killOk p)] else [])) := by
  intro l
  induction l with
  | nil => exact checksPrecedeSends_nil
  | cons q l ih =>
    by_cases ha : alive q = true
    · have hrw : ((q :: l).flatMap (fun p => Event.checkAlive p (alive p) ::
          if alive p = true then [Event.send p force (killOk p)] else [])) =
          Event.checkAlive q true :: Event.send q force (killOk q) ::
            l.flatMap (fun p => Event.checkAlive p (alive p) ::
              if alive p = true then [Event.send p force (killOk p)] else []) := by
        rw [List.flatMap_cons, ha, if_pos rfl]
        rfl
      rw [hrw]
      intro i p f ok hi
      match i with
      | 0 => simp at hi
      | 1 =>
        rw [List.getElem?_cons_succ, List.getElem?_cons_zero] at hi
        have := Option.some_inj.mp hi
        cases this
        exact ⟨0, rfl, by rw [List.getElem?_cons_zero]⟩
      | i + 2 =>
        rw [List.getElem?_cons_succ, List.getElem?_cons_succ] at hi
        obtain ⟨j, hj, hcheck⟩ := ih i p f ok hi
        exact ⟨j + 2, by omega,
          by rw [List.getElem?_cons_succ, List.getElem?_cons_succ]; exact hcheck⟩
    · rw [Bool.not_eq_true] at ha
      simp only [List.flatMap_cons, ha, Bool.false_eq_true, if_neg, ite_false]
      show ChecksPrecedeSends (Event.checkAlive q false :: _)
      exact ChecksPrecedeSends.cons_not_send _ _ (fun p f ok => by simp) ih

theorem checksPrecedeSends_send_signal (w : World) (pid : Nat) (force : Bool) :
    ChecksPrecedeSends (send_signal w pid force) := by
  by_cases h : w.groupKillOk pid = true
  · rw [send_signal_group_ok w pid force h]
    exact ChecksPrecedeSends.cons_not_send _ _ (fun p f ok => by simp)
      checksPrecedeSends_nil
  · rw [Bool.not_eq_true] at h
    rw [send_signal_group_fail w pid force h]
    exact ChecksPrecedeSends.cons_not_send _ _ (fun p f ok => by simp)
      (checksPrecedeSends_checkSend _ _ _ _)

theorem individualSends_killOk_independent (w : World) (k : Nat → Bool)
    (pid : Nat) (force : Bool) :
    individualSends (send_signal { w with killOk := k } pid force) =
      individualSends (send_signal w pid force) := by
  rw [individualSends_send_signal, individualSends_send_signal]

@[simp]
theorem runWatch_nil (esc : List Event) : runWatch [] esc = [] := rfl

theorem runWatch_cons_true (polls : List Bool) (esc : List Event) :
    runWatch (true :: polls) esc = Event.poll true :: runWatch polls esc := by
  simp [runWatch]

theorem runWatch_cons_false (polls : List Bool) (esc : List Event) :
    runWatch (false :: polls) esc =
      Event.poll false :: Event.escalate :: esc := by
  simp [runWatch]

theorem runWatch_all_true (esc : List Event) :
    ∀ polls : List Bool, (∀ b ∈ polls, b = true) →
    runWatch polls esc = polls.map Event.poll := by
  intro polls
  induction polls with
  | nil => intro _; rfl
  | cons b polls ih =>
    intro h
    have hb : b = true := h b (by simp)
    subst hb
    rw [runWatch_cons_true, ih (fun x hx => h x (List.mem_cons_of_mem _ hx))]
    rfl

theorem runWatch_first_false (esc : List Event) :
    ∀ (polls1 polls2 : List Bool), (∀ b ∈ polls1, b = true) →
    runWatch (polls1 ++ false :: polls2) esc =
      polls1.map Event.poll ++ Event.poll false :: Event.escalate :: esc := by
  intro polls1
  induction polls1 with
  | nil =>
    intro polls2 _
    rw [List.nil_append, runWatch_cons_false]
    rfl
  | cons b polls1 ih =>
    intro polls2 h
    have hb : b = true := h b (by simp)
    subst hb
    rw [List.cons_append, runWatch_cons_true,
      ih polls2 (fun x hx => h x (List.mem_cons_of_mem _ hx))]
    rfl

theorem runWatch_escalate_count (esc : List Event)
    (hesc : Event.escalate ∉ esc) :
    ∀ polls : List Bool, (runWatch polls esc).count Event.escalate ≤ 1 := by
  intro polls
  induction polls with
  | nil => simp
  | cons b polls ih =>
    cases b
    · rw [runWatch_cons_false]
      have : esc.count Event.escalate = 0 := List.count_eq_zero.mpr hesc
      simp [List.count_cons, this]
    · rw [runWatch_cons_true]
      simp [List.count_cons, ih]

theorem escalate_not_mem_send_signal (w : World) (pid : Nat) (force : Bool) :
    Event.escalate ∉ send_signal w pid force := by
  intro hmem
  by_cases h : w.groupKillOk pid = true
  · rw [send_signal_group_ok w pid force h] at hmem
    simp at hmem
  · rw [Bool.not_eq_true] at h
    rw [send_signal_group_fail w pid force h] at hmem
    rcases List.mem_cons.mp hmem with hmem | hmem
    · simp at hmem
    · obtain ⟨p, _, hmem⟩ := List.mem_flatMap.mp hmem
      rcases List.mem_cons.mp hmem with hmem | hmem
      · simp at hmem
      · by_cases ha : w.alive p = true <;> simp [ha] at hmem

theorem escalate_not_mem_escalationRun (w1 w2 : World) (targets : List Nat)
    (delay : Nat) : Event.escalate ∉ escalationRun w1 w2 targets delay := by
  intro hmem
  simp only [escalationRun, List.append_assoc, List.mem_append] at hmem
  rcases hmem with hmem | hmem | hmem
  · obtain ⟨p, _, hmem⟩ := List.mem_flatMap.mp hmem
    exact escalate_not_mem_send_signal w1 p false hmem
  · simp at hmem
  · obtain ⟨p, _, hmem⟩ := List.mem_flatMap.mp hmem
    rcases List.mem_cons.mp hmem with hmem | hmem
    · simp at hmem
    · by_cases ha : w2.alive p = true
      · rw [if_pos ha] at hmem
        exact escalate_not_mem_send_signal w2 p true hmem
      · rw [Bool.not_eq_true] at ha
        simp [ha] at hmem


theorem foldl_stepRecord_noop (current d : Nat) :
    ∀ (tbl : List (Nat × Nat)) (s : BuildState), (∀ r ∈ tbl, r.2 ≠ current) →
    List.foldl (stepRecord current d) s tbl = s := by
  intro tbl
  induction tbl with
  | nil => intro s _; rfl
  | cons r tbl ih =>
    intro s h
    rw [List.foldl_cons,
      stepRecord_not_child _ _ _ _ (fun hc => h r (by simp) hc.1)]
    exact ih s (fun x hx => h x (List.mem_cons_of_mem _ hx))

theorem buildAux_of_queue_nil (table : List (Nat × Nat)) (fuel : Nat)
    (s : BuildState) (h : s.queue = []) : buildAux table fuel s = s := by
  cases fuel with
  | zero => rfl
  | succ fuel => simp [buildAux, h]

/-- When the root occurs in no table record, the build loop expands the
root once, discovers nothing, and stops with the one-node tree. -/
theorem build_root_unmentioned (table : List (Nat × Nat)) (root : Nat)
    (h : ∀ r ∈ table, r.1 ≠ root ∧ r.2 ≠ root) :
    build_process_tree table root = [(root, ProcessNode.new root 0)] := by
  have hstep : buildStep table (initState root) =
      ⟨[(root, ProcessNode.new root 0)], [], [root]⟩ := by
    show expandChildren table root _ _ = _
    rw [expandChildren, foldl_stepRecord_noop root _ table _ (fun r hr => (h r hr).2)]
    rfl
  have h1 : buildAux table (2 * table.length + 1) (initState root) =
      buildAux table (2 * table.length) (buildStep table (initState root)) := by
    rfl
  rw [build_process_tree, buildFuel, h1, hstep,
    buildAux_of_queue_nil table _ _ rfl]

/-- A rank function that strictly drops from pid to parent certifies table
acyclicity. -/
theorem tableAcyclic_of_rank (table : List (Nat × Nat)) (f : Nat → Nat)
    (h : ∀ r ∈ table, f r.2 < f r.1) : TableAcyclic table := by
  intro x hx
  have hmono : ∀ a b, Relation.TransGen (fun a b => (b, a) ∈ table) a b →
      f a < f b := by
    intro a b hab
    induction hab with
    | single h1 => exact h _ h1
    | tail _ h1 ih => exact lt_trans ih (h _ h1)
  exact absurd (hmono x x hx) (lt_irrefl _)

/-- A root with no node in the tree map produces the empty kill order. -/
theorem dfs_root_absent (tree : Tree) (root : Nat)
    (h : lookupNode tree root = none) :
    get_processes_in_dfs_order tree root = [] := by
  rw [get_processes_in_dfs_order, dfsFuel, dfsAux_not_found _ _ _ _ (by simp) h]


/-- Claim C1: `send_signal` first attempts a single group kill; on success
it sends no individual signals and returns at once; on failure it builds a
fresh process tree, computes the post-order kill order, and signals each
still-alive pid of that order individually, re-checking liveness
immediately before each send (dead pids are skipped), and per-pid signal
failures never affect which pids are processed (the function is total, so
it always returns normally). -/
theorem claim_C1_send_signal_escalation :
    ∀ (w : World) (pid : Nat) (force : Bool),
      (w.groupKillOk pid = true →
        send_signal w pid force = [Event.groupSend pid force true]) ∧
      (w.groupKillOk pid = false →
        individualSends (send_signal w pid force) =
          (get_processes_in_dfs_order (build_process_tree w.table pid) pid).filter
            (fun p => w.alive p)) ∧
      ChecksPrecedeSends (send_signal w pid force) ∧
      (∀ k : Nat → Bool,
        individualSends (send_signal { w with killOk := k } pid force) =
          individualSends (send_signal w pid force)) := by
  intro w pid force
  refine ⟨send_signal_group_ok w pid force, ?_,
    checksPrecedeSends_send_signal w pid force,
    fun k => individualSends_killOk_independent w k pid force⟩
  intro h
  rw [individualSends_send_signal, if_neg (by simp [h])]

/-- Claim C2: on the tree built from an acyclic table, the post-order DFS
emits exactly the tree's pids, each exactly once, every strict descendant
strictly before its ancestor, and the root last; for the linear chain
1 → 2 → 3 → 4 the kill order is [4, 3, 2, 1]. -/
theorem claim_C2_dfs_postorder (table : List (Nat × Nat)) (root : Nat)
    (hacyc : TableAcyclic table) :
    (∀ p, p ∈ get_processes_in_dfs_order (build_process_tree table root) root ↔
      p ∈ keys (build_process_tree table root)) ∧
    (get_processes_in_dfs_order (build_process_tree table root) root).Nodup ∧
    (get_processes_in_dfs_order (build_process_tree table root) root).getLast? =
      some root ∧
    (∀ p c, Relation.TransGen (Edge (build_process_tree table root)) p c →
      Before (get_processes_in_dfs_order (build_process_tree table root) root) c p) ∧
    get_processes_in_dfs_order (build_process_tree [(2, 1), (3, 2), (4, 3)] 1) 1 =
      [4, 3, 2, 1] := by
  obtain ⟨h1, h2, h3, h4⟩ := dfs_on_built_tree table root hacyc
  exact ⟨h1, h2, h3, h4, by decide⟩

/-- Witness for C2 at the linear chain: the chain table is acyclic (pid is
a strict rank) and the kill order ends at the root. -/
theorem claim_C2_witness :
    (get_processes_in_dfs_order (build_process_tree [(2, 1), (3, 2), (4, 3)] 1) 1).getLast?
      = some 1 :=
  (claim_C2_dfs_postorder [(2, 1), (3, 2), (4, 3)] 1
    (tableAcyclic_of_rank _ (fun x => x) (by decide))).2.2.1

/-- Claim C3: for every table, cyclic ones included, the breadth-first
build loop empties its queue within the canonical fuel (it terminates), it
expands no pid twice (the popped pids are pairwise distinct), and the
resulting tree is a finite map with distinct keys. -/
theorem claim_C3_build_terminates :
    ∀ (table : List (Nat × Nat)) (root : Nat),
      (buildAux table (buildFuel table) (initState root)).queue = [] ∧
      (buildAux table (buildFuel table) (initState root)).expanded.Nodup ∧
      (keys (build_process_tree table root)).Nodup := by
  intro table root
  refine ⟨build_final_queue table root, ?_, (build_final_inv table root).keys_nodup⟩
  exact (build_final_inv table root).exp_queue_nodup.of_append_left

/-- Counterexample to claim C4: with the graceful-phase table reporting 2
as a child of 1 and the forced-phase table no longer containing it (both
group kills failing, every pid alive), pid 2 is individually signaled in
the graceful phase, is still alive at forced time, yet receives no forced
signal: the forced-phase list does not extend the graceful-phase list. -/
theorem claim_C4_counterexample :
    2 ∈ individualSends (gracefulPhase
      ⟨[(2, 1)], fun _ => true, fun _ => false, fun _ => true⟩ [1]) ∧
    (fun (_ : Nat) => true) 2 = true ∧
    2 ∉ individualSends (forcedPhase
      ⟨[], fun _ => true, fun _ => false, fun _ => true⟩ [1]) := by
  refine ⟨by decide, rfl, by decide⟩

/-- Claim C4 as amended: no kill list is carried between the phases; the
forced phase depends only on the forced-time OS state, signaling, for each
target that is itself still alive, exactly the still-alive pids of a tree
rebuilt from scratch at forced time (nothing when its group kill
succeeds); the escalation run is the graceful sweep, one sleep, then this
forced sweep. -/
theorem claim_C4_amended_fresh_forced_phase :
    ∀ (w2 : World) (targets : List Nat),
      individualSends (forcedPhase w2 targets) =
        targets.flatMap (fun t =>
          if w2.alive t then
            (if w2.groupKillOk t then []
             else (get_processes_in_dfs_order (build_process_tree w2.table t) t).filter
               (fun p => w2.alive p))
          else []) ∧
      (∀ (w1 : World) (delay : Nat),
        escalationRun w1 w2 targets delay =
          gracefulPhase w1 targets ++ Event.sleep delay :: forcedPhase w2 targets) := by
  intro w2 targets
  constructor
  · induction targets with
    | nil => rfl
    | cons t ts ih =>
      have hsplit : forcedPhase w2 (t :: ts) =
          (Event.checkAlive t (w2.alive t) ::
            if w2.alive t = true then send_signal w2 t true else []) ++
          forcedPhase w2 ts := by
        rw [forcedPhase, List.flatMap_cons]; rfl
      rw [hsplit, individualSends_append, List.flatMap_cons]
      by_cases ha : w2.alive t = true
      · have hc : individualSends (Event.checkAlive t (w2.alive t) ::
            if w2.alive t = true then send_signal w2 t true else []) =
            individualSends (send_signal w2 t true) := by
          rw [if_pos ha]; rfl
        rw [hc, individualSends_send_signal, ih, if_pos ha]
      · rw [Bool.not_eq_true] at ha
        have hc : individualSends (Event.checkAlive t (w2.alive t) ::
            if w2.alive t = true then send_signal w2 t true else []) = [] := by
          rw [ha]; rfl
        rw [hc, ih, ha]
        simp
  · intro w1 delay
    simp [escalationRun, gracefulPhase, forcedPhase]

/-- Counterexample to claim C5: with the duplicated snapshot record (2, 1)
appearing twice, the built tree's root keeps both occurrences in its
children list — duplicates are not collapsed. -/
theorem claim_C5_counterexample :
    (lookupNode (build_process_tree [(2, 1), (2, 1)] 1) 1).map ProcessNode.children =
      some [2, 2] ∧
    ¬ ([2, 2] : List Nat).Nodup := by
  refine ⟨by decide, by decide⟩

/-- Claim C5 as amended: duplicate `(pid, parent_pid)` records are appended
once per occurrence to the parent's children list (they do not collapse
there), but each pid still owns at most one node of the tree map and the
kill order emits each pid at most once, so the duplication never reaches
the signaling loop. -/
theorem claim_C5_amended_dedup_at_traversal :
    ∀ (table : List (Nat × Nat)) (root : Nat),
      (keys (build_process_tree table root)).Nodup ∧
      (get_processes_in_dfs_order (build_process_tree table root) root).Nodup := by
  intro table root
  exact ⟨(build_final_inv table root).keys_nodup,
    get_processes_in_dfs_order_nodup _ _⟩

/-- Claim C6: in every built tree the root node has depth 0, every
non-root node's depth is one more than the depth of the node keyed by its
recorded parent pid, and no node lists its own pid among its children
(self-parent records are rejected during expansion). -/
theorem claim_C6_depth_and_no_self_loops :
    ∀ (table : List (Nat × Nat)) (root : Nat),
      (∃ n, lookupNode (build_process_tree table root) root = some n ∧
        n.depth = 0) ∧
      (∀ p n, lookupNode (build_process_tree table root) p = some n → p ≠ root →
        ∃ m, lookupNode (build_process_tree table root) n.parent_pid = some m ∧
          n.depth = m.depth + 1) ∧
      (∀ p n, lookupNode (build_process_tree table root) p = some n →
        p ∉ n.children) := by
  intro table root
  have hbinv := build_final_inv table root
  refine ⟨?_, hbinv.depth_parent, hbinv.no_self_child⟩
  obtain ⟨n, hn⟩ : ∃ n, lookupNode (build_process_tree table root) root = some n := by
    have h2 : (lookupNode (build_process_tree table root) root).isSome :=
      (lookupNode_isSome_iff_mem_keys _ _).mpr hbinv.root_mem
    cases h : lookupNode (build_process_tree table root) root
    · rw [h] at h2; simp at h2
    · exact ⟨_, rfl⟩
  exact ⟨n, hn, (hbinv.root_node n hn).2⟩

/-- Claim C7: the watch loop escalates at most once in every run; while
every poll answers true it emits nothing but the polls themselves (no
termination signal); and on the first false poll it runs the full
escalation sequence once and stops — later poll outcomes are never
consulted. -/
theorem claim_C7_escalates_exactly_once :
    ∀ (w1 w2 : World) (targets : List Nat) (delay : Nat) (polls : List Bool),
      (runWatch polls (escalationRun w1 w2 targets delay)).count Event.escalate ≤ 1 ∧
      ((∀ b ∈ polls, b = true) →
        runWatch polls (escalationRun w1 w2 targets delay) = polls.map Event.poll) ∧
      (∀ (polls1 polls2 : List Bool), (∀ b ∈ polls1, b = true) →
        runWatch (polls1 ++ false :: polls2) (escalationRun w1 w2 targets delay) =
          polls1.map Event.poll ++ Event.poll false :: Event.escalate ::
            escalationRun w1 w2 targets delay) := by
  intro w1 w2 targets delay polls
  exact ⟨runWatch_escalate_count _ (escalate_not_mem_escalationRun w1 w2 targets delay)
      polls,
    runWatch_all_true _ polls,
    fun polls1 polls2 h => runWatch_first_false _ polls1 polls2 h⟩

/-- Counterexample to claim C8: a transient probe failure (EPERM, which
means the process exists but the query failed) makes `is_process_alive`
answer false, and the watch loop escalates on that very tick instead of
treating the guardian as still alive. -/
theorem claim_C8_counterexample :
    is_process_alive (Except.error Errno.EPERM) = false ∧
    runWatch [is_process_alive (Except.error Errno.EPERM)] [] =
      [Event.poll false, Event.escalate] := by
  exact ⟨rfl, rfl⟩

/-- Claim C8 as amended: `is_process_alive` is `kill(pid, None).is_ok()`,
so every probe error — transient or not — is reported as "dead", and a
poll built from any failing probe triggers escalation on that tick. -/
theorem claim_C8_amended_error_means_dead :
    ∀ (e : Errno) (polls : List Bool) (esc : List Event),
      is_process_alive (Except.error e) = false ∧
      runWatch (is_process_alive (Except.error e) :: polls) esc =
        Event.poll false :: Event.escalate :: esc := by
  intro e polls esc
  exact ⟨rfl, runWatch_cons_false polls esc⟩

/-- Claim C9: when the root pid appears in no record of the snapshot, the
build returns the one-node tree holding only the root, initialized with
depth 0 and synthetic parent 0, without failing. -/
theorem claim_C9_absent_root_one_node (table : List (Nat × Nat)) (root : Nat)
    (h : ∀ r ∈ table, r.1 ≠ root ∧ r.2 ≠ root) :
    build_process_tree table root = [(root, ProcessNode.new root 0)] :=
  build_root_unmentioned table root h

/-- Witness for C9: a table mentioning only other pids yields the one-node
tree. -/
theorem claim_C9_witness :
    build_process_tree [(5, 4)] 1 = [(1, ProcessNode.new 1 0)] :=
  claim_C9_absent_root_one_node [(5, 4)] 1 (by decide)

/-- Claim C10: when the requested root has no node in the tree map — the
empty map included — the DFS returns the empty kill order instead of
emitting the root or failing. -/
theorem claim_C10_missing_root_empty_order (tree : Tree) (root : Nat)
    (h : lookupNode tree root = none) :
    get_processes_in_dfs_order tree root = [] :=
  dfs_root_absent tree root h

/-- Witness for C10 at the empty tree map. -/
theorem claim_C10_witness :
    get_processes_in_dfs_order ([] : Tree) 999 = [] :=
  claim_C10_missing_root_empty_order [] 999 rfl

end ProcessWick
